import Mathlib

/-!
# Verification of `WorkerPool` (src/src/index.ts)

Shallow embedding of the `WorkerPool` class. Worker handles are modelled as
natural numbers; the JavaScript `Set<Worker>` field `workersPool` is modelled
as an insertion-ordered duplicate-free `List Nat` (a JS `Set` iterates in
insertion order, `add` is a no-op on a present element and otherwise appends,
`values().next().value` yields the first inserted element).

The caller-supplied `workerConstructor` factory is modelled as a counter
(`nextId`): each invocation returns a handle distinct from every handle the
pool has produced before, matching the fact that `new Worker()` yields a fresh
object. The state also records the number of factory invocations
(`factoryCalls`) and the list of handles on which `worker.terminate()` was
invoked (`terminated`), so that claims about "factory called exactly n times"
and "exactly one termination" are expressible.

`maxWorkers` is `Option Nat`: `none` models the default `Infinity`
(`size >= Infinity` is false for every actual size).
-/

/-- JS `Set.add` on the insertion-ordered element list: no-op when the element
is already present, otherwise append at the end. -/
def setAdd (s : List Nat) (w : Nat) : List Nat :=
  if w ∈ s then s else s ++ [w]

structure WorkerPool where
  /-- `private readonly workersPool = new Set<Worker>()`, as its
  insertion-ordered element list. -/
  workersPool : List Nat
  /-- `private readonly maxWorkers: number`; `none` is `Infinity`. -/
  maxWorkers : Option Nat
  /-- Next fresh handle the factory will produce. -/
  nextId : Nat
  /-- Number of `workerConstructor()` invocations so far. -/
  factoryCalls : Nat
  /-- Handles on which `worker.terminate()` has been invoked, in order. -/
  terminated : List Nat
deriving DecidableEq

namespace WorkerPool

/-- The test `this.workersPool.size >= this.maxWorkers`. -/
def capReached (cap : Option Nat) (size : Nat) : Bool :=
  match cap with
  | none => false
  | some k => size ≥ k

/-- One invocation of `this.workerConstructor()`: returns a fresh handle. -/
def factory (p : WorkerPool) : WorkerPool × Nat :=
  ({ p with nextId := p.nextId + 1, factoryCalls := p.factoryCalls + 1 },
   p.nextId)

/-- `get()`: `workersPool.values().next().value` is the first inserted element
when the set is non-empty (a `Worker` object, hence truthy) and `undefined`
(falsy) otherwise; in the first case the worker is deleted from the set and
returned, in the second `workerConstructor()` is invoked. -/
def get (p : WorkerPool) : WorkerPool × Nat :=
  match p.workersPool with
  | w :: _ => ({ p with workersPool := p.workersPool.erase w }, w)
  | [] => factory p

/-- `return(worker)`: terminate when `size >= maxWorkers`, else `Set.add`.
(Named `ret` because `return` is a Lean keyword.) -/
def ret (p : WorkerPool) (w : Nat) : WorkerPool :=
  if capReached p.maxWorkers p.workersPool.length then
    { p with terminated := p.terminated ++ [w] }
  else
    { p with workersPool := setAdd p.workersPool w }

/-- The constructor loop
`for (let i = 0; i < initialWorkers; i++) workersPool.add(workerConstructor())`. -/
def mkAux (p : WorkerPool) : Nat → WorkerPool
  | 0 => p
  | n + 1 =>
    let r := factory p
    mkAux { r.1 with workersPool := setAdd r.1.workersPool r.2 } n

/-- `new WorkerPool(workerConstructor, { initialWorkers, maxWorkers })`. -/
def mkPool (initialWorkers : Nat) (maxWorkers : Option Nat) : WorkerPool :=
  mkAux ⟨[], maxWorkers, 0, 0, []⟩ initialWorkers

/-- `get()` iterated `n` times, collecting the returned handles in order. -/
def getN (p : WorkerPool) : Nat → WorkerPool × List Nat
  | 0 => (p, [])
  | n + 1 =>
    let r := get p
    let s := getN r.1 n
    (s.1, r.2 :: s.2)

/-- `return` applied to each handle of a list in order. -/
def retAll (p : WorkerPool) (ws : List Nat) : WorkerPool :=
  ws.foldl ret p

/-- One caller-visible pool operation. -/
inductive Op where
  | opGet : Op
  | opRet : Nat → Op
deriving DecidableEq

/-- Apply one operation to the pool state. -/
def step (p : WorkerPool) : Op → WorkerPool
  | .opGet => (get p).1
  | .opRet w => ret p w

/-- Run a sequence of operations. -/
def run (p : WorkerPool) (ops : List Op) : WorkerPool :=
  ops.foldl step p

/-- Pool states reachable from a constructor call by callers that respect the
documented contract of `return`: a released handle was produced by this pool
(`w < nextId`), is not currently recorded as idle, and has not been
terminated. -/
inductive Reach : WorkerPool → Prop where
  | init : ∀ m cap, Reach (mkPool m cap)
  | stepGet : ∀ p, Reach p → Reach (get p).1
  | stepRet : ∀ p w, Reach p → w < p.nextId → w ∉ p.workersPool →
      w ∉ p.terminated → Reach (ret p w)

end WorkerPool

/-!
## Error-propagation model (claim about factory failure)

The factory may throw. `populateE` models the constructor loop with a
fallible factory `f` (`f i` is the outcome of the i-th invocation): a throw
aborts the loop and propagates, so construction yields no pool at all and the
failing call stores nothing. `getE` models `get()` with a fallible factory:
on an empty idle set the factory outcome is returned verbatim and the idle
set is untouched. -/

/-- Constructor-time population with a fallible factory. -/
def populateE (f : Nat → Except String Nat) :
    Nat → Nat → List Nat → Except String (List Nat)
  | 0, _, s => .ok s
  | n + 1, i, s =>
    match f i with
    | .error e => .error e
    | .ok w => populateE f n (i + 1) (setAdd s w)

/-- `get()` with a fallible factory, acting on the idle list. -/
def getE (idle : List Nat) (f : Except String Nat) :
    Except String (List Nat × Nat) :=
  match idle with
  | w :: _ => .ok (idle.erase w, w)
  | [] =>
    match f with
    | .error e => .error e
    | .ok w => .ok ([], w)

/-- A sample fallible factory that throws on its second invocation. -/
def failF : Nat → Except String Nat
  | 1 => .error "factory failed"
  | j => .ok j

/-!
## Helper lemmas
-/

namespace WorkerPool

theorem setAdd_of_mem {s : List Nat} {w : Nat} (h : w ∈ s) : setAdd s w = s := by
  simp [setAdd, h]

theorem setAdd_of_not_mem {s : List Nat} {w : Nat} (h : w ∉ s) :
    setAdd s w = s ++ [w] := by
  simp [setAdd, h]

theorem mem_setAdd_self (s : List Nat) (w : Nat) : w ∈ setAdd s w := by
  by_cases h : w ∈ s
  · simpa [setAdd_of_mem h]
  · simp [setAdd_of_not_mem h]

theorem setAdd_nodup {s : List Nat} {w : Nat} (h : s.Nodup) :
    (setAdd s w).Nodup := by
  by_cases hm : w ∈ s
  · simpa [setAdd_of_mem hm]
  · simp [setAdd_of_not_mem hm, List.nodup_append, h, hm]

theorem setAdd_length_le (s : List Nat) (w : Nat) :
    (setAdd s w).length ≤ s.length + 1 := by
  by_cases hm : w ∈ s
  · simp [setAdd_of_mem hm]
  · simp [setAdd_of_not_mem hm]

theorem get_maxWorkers (p : WorkerPool) : (get p).1.maxWorkers = p.maxWorkers := by
  unfold get
  match h : p.workersPool with
  | [] => rfl
  | w :: rest => rfl

theorem get_terminated (p : WorkerPool) : (get p).1.terminated = p.terminated := by
  unfold get
  match h : p.workersPool with
  | [] => rfl
  | w :: rest => rfl

theorem ret_maxWorkers (p : WorkerPool) (w : Nat) :
    (ret p w).maxWorkers = p.maxWorkers := by
  unfold ret
  by_cases h : capReached p.maxWorkers p.workersPool.length <;> simp [h]

/-- `get` on a non-empty idle set removes and returns the head (first
inserted element), leaving the factory untouched. -/
theorem get_cons {p : WorkerPool} {w : Nat} {rest : List Nat}
    (h : p.workersPool = w :: rest) :
    get p = ({ p with workersPool := rest }, w) := by
  unfold get
  rw [h]
  simp [List.erase_cons_head]

/-- `get` on an empty idle set invokes the factory. -/
theorem get_nil {p : WorkerPool} (h : p.workersPool = []) :
    get p = factory p := by
  unfold get
  rw [h]

/-- `return` below capacity stores the handle. -/
theorem ret_under {p : WorkerPool} {w : Nat}
    (h : capReached p.maxWorkers p.workersPool.length = false) :
    ret p w = { p with workersPool := setAdd p.workersPool w } := by
  simp [ret, h]

/-- `return` at or above capacity terminates the handle and stores nothing. -/
theorem ret_over {p : WorkerPool} {w : Nat}
    (h : capReached p.maxWorkers p.workersPool.length = true) :
    ret p w = { p with terminated := p.terminated ++ [w] } := by
  simp [ret, h]

/-- The constructor loop: starting from a state whose idle list consists of
exactly the handles produced so far, it appends `n` fresh handles. -/
theorem mkAux_spec : ∀ (n : Nat) (p : WorkerPool),
    p.workersPool = List.range p.nextId →
    mkAux p n = ⟨List.range (p.nextId + n), p.maxWorkers, p.nextId + n,
      p.factoryCalls + n, p.terminated⟩ := by
  intro n
  induction n with
  | zero =>
    intro p hp
    obtain ⟨a, b, c, d, e⟩ := p
    simp_all [mkAux]
  | succ n ih =>
    intro p hp
    show mkAux { factory p |>.1 with
      workersPool := setAdd (factory p).1.workersPool (factory p).2 } n = _
    have hnm : p.nextId ∉ List.range p.nextId := by simp
    have h1 : setAdd (factory p).1.workersPool (factory p).2
        = List.range (p.nextId + 1) := by
      simp only [factory]
      rw [hp, setAdd_of_not_mem hnm, List.range_succ]
    rw [ih _ (by simpa [factory] using h1)]
    simp [factory]
    constructor
    · congr 1
      omega
    · omega

/-- `new WorkerPool(ctor, { initialWorkers := m, maxWorkers := cap })`
produces the state with idle list `[0, …, m-1]`, `m` factory calls and no
terminations. -/
theorem mkPool_spec (m : Nat) (cap : Option Nat) :
    mkPool m cap = ⟨List.range m, cap, m, m, []⟩ := by
  have := mkAux_spec m ⟨[], cap, 0, 0, []⟩ (by simp)
  simpa [mkPool] using this

/-- Behaviour of `n` successive `get()` calls: the first `idle.size` ones pop
the idle list front-to-back, the remaining ones invoke the factory, which
hands out the fresh handles `nextId, nextId+1, …`. -/
theorem getN_spec : ∀ (n : Nat) (p : WorkerPool),
    (getN p n).2 = p.workersPool.take n
        ++ List.range' p.nextId (n - p.workersPool.length)
    ∧ (getN p n).1.factoryCalls = p.factoryCalls + (n - p.workersPool.length)
    ∧ (getN p n).1.workersPool = p.workersPool.drop n
    ∧ (getN p n).1.nextId = p.nextId + (n - p.workersPool.length) := by
  intro n
  induction n with
  | zero => intro p; simp [getN]
  | succ n ih =>
    intro p
    match hq : p.workersPool with
    | w :: rest =>
      have hget := get_cons hq
      have ihr := ih { p with workersPool := rest }
      simp only [getN, hget]
      simp only at ihr
      refine ⟨?_, ?_, ?_, ?_⟩
      · rw [ihr.1]; simp [hq, Nat.succ_sub_succ]
      · rw [ihr.2.1]; simp [hq, Nat.succ_sub_succ]
      · rw [ihr.2.2.1]; simp [hq, Nat.succ_sub_succ]
      · rw [ihr.2.2.2]; simp [hq, Nat.succ_sub_succ]
    | [] =>
      have hget := get_nil hq
      have ihr := ih ((factory p).1)
      simp only [getN, hget]
      simp only [factory] at ihr ⊢
      refine ⟨?_, ?_, ?_, ?_⟩
      · rw [ihr.1]; simp [hq, List.range'_succ]
      · rw [ihr.2.1]; simp [hq]; omega
      · rw [ihr.2.2.1]; simp [hq]
      · rw [ihr.2.2.2]; simp [hq]; omega

/-- `step` preserves the size bound `idle.size ≤ k` of a pool with
`maxWorkers = k`. -/
theorem step_size_le {p : WorkerPool} {k : Nat} (hcap : p.maxWorkers = some k)
    (h : p.workersPool.length ≤ k) (o : Op) :
    (step p o).workersPool.length ≤ k ∧ (step p o).maxWorkers = some k := by
  cases o with
  | opGet =>
    refine ⟨?_, by simpa [step, get_maxWorkers]⟩
    show (get p).1.workersPool.length ≤ k
    match hq : p.workersPool with
    | [] => rw [get_nil hq]; simp [factory, hq]
    | w :: rest =>
      rw [get_cons hq]
      simp only
      rw [hq] at h
      simpa using Nat.le_of_succ_le (by simpa using h)
  | opRet w =>
    refine ⟨?_, by simpa [step, ret_maxWorkers]⟩
    show (ret p w).workersPool.length ≤ k
    by_cases hc : capReached p.maxWorkers p.workersPool.length
    · rw [ret_over hc]; exact h
    · rw [ret_under (by simpa using hc)]
      have hlt : p.workersPool.length < k := by
        simp [capReached, hcap] at hc
        omega
      calc (setAdd p.workersPool w).length ≤ p.workersPool.length + 1 :=
            setAdd_length_le _ _
        _ ≤ k := hlt

/-- A run of operations preserves the size bound. -/
theorem run_size_le {k : Nat} : ∀ (ops : List Op) (p : WorkerPool),
    p.maxWorkers = some k → p.workersPool.length ≤ k →
    (run p ops).workersPool.length ≤ k := by
  intro ops
  induction ops with
  | nil => intro p _ h; exact h
  | cons o rest ih =>
    intro p hcap h
    have hs := step_size_le hcap h o
    exact ih (step p o) hs.2 hs.1

theorem mem_setAdd {s : List Nat} {w u : Nat} (h : u ∈ setAdd s w) :
    u ∈ s ∨ u = w := by
  by_cases hm : w ∈ s
  · rw [setAdd_of_mem hm] at h; exact Or.inl h
  · rw [setAdd_of_not_mem hm] at h; simpa using h

/-- Invariant of contract-respecting reachable states: every idle and every
terminated handle was produced by the pool, and no idle handle has been
terminated. -/
theorem reach_inv {p : WorkerPool} (h : Reach p) :
    (∀ w ∈ p.workersPool, w < p.nextId) ∧
    (∀ w ∈ p.terminated, w < p.nextId) ∧
    (∀ w ∈ p.workersPool, w ∉ p.terminated) := by
  induction h with
  | init m cap => rw [mkPool_spec]; simp
  | stepGet p hp ih =>
    match hq : p.workersPool with
    | [] =>
      rw [get_nil hq]
      simp only [factory]
      exact ⟨by simp [hq], fun w hw => Nat.lt_succ_of_lt (ih.2.1 w hw),
        by simp [hq]⟩
    | w :: rest =>
      rw [get_cons hq]
      simp only
      refine ⟨?_, ih.2.1, ?_⟩
      · intro u hu; exact ih.1 u (by rw [hq]; exact List.mem_cons_of_mem _ hu)
      · intro u hu; exact ih.2.2 u (by rw [hq]; exact List.mem_cons_of_mem _ hu)
  | stepRet p w hp hlt hnm hnt ih =>
    by_cases hc : capReached p.maxWorkers p.workersPool.length
    · rw [ret_over hc]
      refine ⟨ih.1, ?_, ?_⟩
      · intro u hu
        rcases List.mem_append.mp hu with hu | hu
        · exact ih.2.1 u hu
        · simp only [List.mem_singleton] at hu
          exact hu ▸ hlt
      · intro u hu
        rw [List.mem_append]
        push_neg
        exact ⟨ih.2.2 u hu, by
          simp only [List.mem_singleton]
          intro he
          exact hnm (he ▸ hu)⟩
    · rw [ret_under (by simpa using hc)]
      simp only
      refine ⟨?_, ih.2.1, ?_⟩
      · intro u hu
        rcases mem_setAdd hu with hu | hu
        · exact ih.1 u hu
        · exact hu ▸ hlt
      · intro u hu
        rcases mem_setAdd hu with hu | hu
        · exact ih.2.2 u hu
        · exact hu ▸ hnt

end WorkerPool

/-- C2, claim as stated is false: the pool does not track terminated handles,
so a double release at capacity terminates a handle while it stays idle.
With `maxWorkers = 1`: `return(5); return(5)` — the first call stores handle 5,
the second finds the pool full and calls `5.terminate()`; handle 5 is now both
terminated and idle, and the next `get()` hands it out. -/
theorem claim2_terminated_cex :
    5 ∈ (WorkerPool.ret (WorkerPool.ret (WorkerPool.mkPool 0 (some 1)) 5) 5).terminated ∧
    5 ∈ (WorkerPool.ret (WorkerPool.ret (WorkerPool.mkPool 0 (some 1)) 5) 5).workersPool ∧
    (WorkerPool.get (WorkerPool.ret (WorkerPool.ret (WorkerPool.mkPool 0 (some 1)) 5) 5)).2
      = 5 := by decide

/-- C2 (amended): in every reachable state of a run in which the caller
releases only handles that the pool produced, that are not currently idle and
that have not been terminated (the documented caller contract of `return`),
a terminated handle is never a member of the idle set and is never returned
by `get`. -/
theorem claim2_terminated_amended {p : WorkerPool} (h : WorkerPool.Reach p) :
    (∀ w ∈ p.workersPool, w ∉ p.terminated) ∧ (WorkerPool.get p).2 ∉ p.terminated := by
  have inv := WorkerPool.reach_inv h
  refine ⟨inv.2.2, ?_⟩
  match hq : p.workersPool with
  | [] =>
    rw [WorkerPool.get_nil hq]
    simp only [WorkerPool.factory]
    intro hc
    exact absurd (inv.2.1 _ hc) (by omega)
  | w :: rest =>
    rw [WorkerPool.get_cons hq]
    exact inv.2.2 w (by rw [hq]; simp)

/-- Witness for C2's amended theorem at the reachable state
`new WorkerPool(ctor, { initialWorkers: 1, maxWorkers: 2 })`. -/
theorem claim2_terminated_amended_witness :
    (∀ w ∈ (WorkerPool.mkPool 1 (some 2)).workersPool,
      w ∉ (WorkerPool.mkPool 1 (some 2)).terminated) ∧
    (WorkerPool.get (WorkerPool.mkPool 1 (some 2))).2
      ∉ (WorkerPool.mkPool 1 (some 2)).terminated :=
  claim2_terminated_amended (WorkerPool.Reach.init 1 (some 2))

/-- C1, claim as stated is false: the constructor does not enforce the
capacity. `new WorkerPool(ctor, { initialWorkers: 2, maxWorkers: 1 })` stores
both created workers, so the idle set has size 2 > 1 = capacity. -/
theorem claim1_capacity_cex :
    ¬ ((WorkerPool.mkPool 2 (some 1)).workersPool.length ≤ 1) := by decide

/-- C1 (amended): provided `initialCount ≤ capacity`, the idle set never
exceeds the capacity: constructing with `initialWorkers = m ≤ k = maxWorkers`
and running any sequence of `get`/`return` operations keeps
`idle.size ≤ k` at all times (the bound is enforced at release; `get` only
shrinks the idle set). Constructing with `m > k` instead yields an idle set
of size `m`, exceeding the capacity. -/
theorem claim1_capacity_amended (m k : Nat) (hm : m ≤ k) (ops : List WorkerPool.Op) :
    (WorkerPool.run (WorkerPool.mkPool m (some k)) ops).workersPool.length ≤ k := by
  apply WorkerPool.run_size_le
  · rw [WorkerPool.mkPool_spec]
  · rw [WorkerPool.mkPool_spec]; simpa using hm

/-- Witness for C1's amended theorem at `m = 1`, `k = 2`,
`ops = [return 5, get]`. -/
theorem claim1_capacity_amended_witness :
    1 ≤ 2 ∧ (WorkerPool.run (WorkerPool.mkPool 1 (some 2))
      [WorkerPool.Op.opRet 5, WorkerPool.Op.opGet]).workersPool.length ≤ 2 :=
  ⟨by decide, claim1_capacity_amended 1 2 (by decide)
    [WorkerPool.Op.opRet 5, WorkerPool.Op.opGet]⟩

/-- C3, claim as stated is false: with two idle handles, `h = get()` removes
the oldest handle (0), `return(h)` re-inserts it at the back of the set, and
the next `get()` returns the other handle (1), not `h`. Also falsified by
`maxWorkers = 0`, where `return(h)` terminates `h` instead of storing it. -/
theorem claim3_reuse_cex :
    (WorkerPool.get (WorkerPool.ret (WorkerPool.get (WorkerPool.mkPool 2 none)).1
        (WorkerPool.get (WorkerPool.mkPool 2 none)).2)).2
      ≠ (WorkerPool.get (WorkerPool.mkPool 2 none)).2 := by decide

/-- C3 (amended): if the idle set is empty right after `h = get()` and the
capacity admits a zeroth idle handle (`capacity ≥ 1` or unbounded), then after
`return(h)` the next `get()` returns `h`. -/
theorem claim3_reuse_amended (p : WorkerPool)
    (hempty : (WorkerPool.get p).1.workersPool = [])
    (hcap : WorkerPool.capReached p.maxWorkers 0 = false) :
    (WorkerPool.get (WorkerPool.ret (WorkerPool.get p).1 (WorkerPool.get p).2)).2
      = (WorkerPool.get p).2 := by
  have hc2 : WorkerPool.capReached (WorkerPool.get p).1.maxWorkers
      (WorkerPool.get p).1.workersPool.length = false := by
    rw [WorkerPool.get_maxWorkers, hempty]
    exact hcap
  rw [WorkerPool.ret_under hc2]
  have hlist : ({ (WorkerPool.get p).1 with
      workersPool := setAdd (WorkerPool.get p).1.workersPool (WorkerPool.get p).2 }
        : WorkerPool).workersPool = (WorkerPool.get p).2 :: [] := by
    simp only
    rw [hempty]
    simp [setAdd]
  rw [WorkerPool.get_cons hlist]

/-- Witness for C3's amended theorem: a pool created with one idle worker and
capacity 1; `h = get()` empties the idle set, `return(h); get()` yields `h`. -/
theorem claim3_reuse_amended_witness :
    (WorkerPool.get (WorkerPool.mkPool 1 (some 1))).1.workersPool = [] ∧
    WorkerPool.capReached (WorkerPool.mkPool 1 (some 1)).maxWorkers 0 = false ∧
    (WorkerPool.get (WorkerPool.ret (WorkerPool.get (WorkerPool.mkPool 1 (some 1))).1
        (WorkerPool.get (WorkerPool.mkPool 1 (some 1))).2)).2
      = (WorkerPool.get (WorkerPool.mkPool 1 (some 1))).2 :=
  ⟨by decide, by decide,
    claim3_reuse_amended (WorkerPool.mkPool 1 (some 1)) (by decide) (by decide)⟩

namespace WorkerPool

/-- Releasing a duplicate-free list of handles, none of them currently idle,
while there is room for all of them: all are stored in order and nothing is
terminated. -/
theorem retAll_under : ∀ (ws : List Nat) (p : WorkerPool) (k : Nat),
    p.maxWorkers = some k → ws.Nodup → (∀ w ∈ ws, w ∉ p.workersPool) →
    p.workersPool.length + ws.length ≤ k →
    (retAll p ws).workersPool = p.workersPool ++ ws ∧
    (retAll p ws).terminated = p.terminated ∧
    (retAll p ws).maxWorkers = some k := by
  intro ws
  induction ws with
  | nil =>
    intro p k hcap _ _ _
    exact ⟨by simp [retAll], by simp [retAll], by simpa [retAll] using hcap⟩
  | cons w rest ih =>
    intro p k hcap hnd hnm hlen
    simp only [List.length_cons] at hlen
    have hcf : capReached p.maxWorkers p.workersPool.length = false := by
      simp [capReached, hcap]
      omega
    have hstep : ret p w = { p with workersPool := p.workersPool ++ [w] } := by
      rw [ret_under hcf, setAdd_of_not_mem (hnm w (by simp))]
    have hfold : retAll p (w :: rest) = retAll (ret p w) rest := by
      simp [retAll]
    rw [hfold, hstep]
    have ihr := ih { p with workersPool := p.workersPool ++ [w] } k hcap
      (List.Nodup.of_cons hnd)
      (by
        intro u hu
        simp only [List.mem_append, List.mem_singleton]
        push_neg
        exact ⟨hnm u (List.mem_cons_of_mem _ hu),
          fun he => (List.nodup_cons.mp hnd).1 (he ▸ hu)⟩)
      (by simp; omega)
    refine ⟨?_, ihr.2.1, ihr.2.2⟩
    rw [ihr.1]
    simp

end WorkerPool

/-- C4 (confirmed): with `capacity = k` and an empty idle set, releasing
`k + 1` distinct handles stores the first `k` of them and terminates exactly
one (the last): afterwards the idle set holds exactly `k` handles and exactly
one `terminate()` call has happened. -/
theorem claim4_capacity_overflow (p : WorkerPool) (k : Nat) (ws : List Nat)
    (hcap : p.maxWorkers = some k) (hidle : p.workersPool = [])
    (hnd : ws.Nodup) (hlen : ws.length = k + 1) :
    (WorkerPool.retAll p ws).workersPool.length = k ∧
    (WorkerPool.retAll p ws).terminated.length = p.terminated.length + 1 := by
  have hne : ws ≠ [] := by
    intro h
    rw [h] at hlen
    simp at hlen
  have hws : ws.dropLast ++ [ws.getLast hne] = ws := List.dropLast_append_getLast hne
  have hfold : WorkerPool.retAll p ws
      = WorkerPool.ret (WorkerPool.retAll p ws.dropLast) (ws.getLast hne) := by
    conv_lhs => rw [← hws]
    simp [WorkerPool.retAll, List.foldl_append]
  have hdl : ws.dropLast.length = k := by
    rw [List.length_dropLast, hlen]
    omega
  have hq := WorkerPool.retAll_under ws.dropLast p k hcap
    ((List.dropLast_sublist ws).nodup hnd)
    (by intro u _; rw [hidle]; simp)
    (by rw [hidle, hdl]; simp)
  have hqlen : (WorkerPool.retAll p ws.dropLast).workersPool.length = k := by
    rw [hq.1, hidle, List.nil_append, hdl]
  have hover : WorkerPool.capReached (WorkerPool.retAll p ws.dropLast).maxWorkers
      (WorkerPool.retAll p ws.dropLast).workersPool.length = true := by
    rw [hq.2.2, hqlen]
    simp [WorkerPool.capReached]
  rw [hfold, WorkerPool.ret_over hover]
  exact ⟨hqlen, by rw [hq.2.1]; simp⟩

/-- Witness for C4 at `capacity = 2`, idle set empty, releasing the three
distinct handles 3, 4, 5. -/
theorem claim4_capacity_overflow_witness :
    (WorkerPool.mkPool 0 (some 2)).maxWorkers = some 2 ∧
    (WorkerPool.mkPool 0 (some 2)).workersPool = [] ∧
    ([3, 4, 5] : List Nat).Nodup ∧
    ([3, 4, 5] : List Nat).length = 2 + 1 ∧
    (WorkerPool.retAll (WorkerPool.mkPool 0 (some 2)) [3, 4, 5]).workersPool.length = 2 ∧
    (WorkerPool.retAll (WorkerPool.mkPool 0 (some 2)) [3, 4, 5]).terminated.length
      = (WorkerPool.mkPool 0 (some 2)).terminated.length + 1 := by
  refine ⟨by decide, by decide, by decide, by decide, ?_⟩
  exact claim4_capacity_overflow (WorkerPool.mkPool 0 (some 2)) 2 [3, 4, 5]
    (by decide) (by decide) (by decide) (by decide)

/-- C5, claim as stated is false for pools whose idle set is non-empty: the
constructor ignores `maxWorkers`, so
`new WorkerPool(ctor, { initialWorkers: 1, maxWorkers: 0 })` starts with one
idle handle; `return(5)` terminates 5 but leaves the idle set non-empty, and
`get()` hands out the idle handle without invoking the factory. -/
theorem claim5_zero_capacity_cex :
    (WorkerPool.ret (WorkerPool.mkPool 1 (some 0)) 5).workersPool ≠ [] ∧
    (WorkerPool.get (WorkerPool.mkPool 1 (some 0))).1.factoryCalls
      = (WorkerPool.mkPool 1 (some 0)).factoryCalls := by decide

/-- C5 (amended): for every pool with `maxWorkers = 0` whose idle set is
empty (as when constructed with `initialWorkers = 0`), every `return(w)`
terminates `w` immediately and leaves the idle set empty, and every `get()`
invokes the factory once and returns the fresh handle. -/
theorem claim5_zero_capacity_amended (p : WorkerPool) (w : Nat)
    (hcap : p.maxWorkers = some 0) (hidle : p.workersPool = []) :
    (WorkerPool.ret p w).terminated = p.terminated ++ [w] ∧
    (WorkerPool.ret p w).workersPool = [] ∧
    (WorkerPool.get p).2 = p.nextId ∧
    (WorkerPool.get p).1.factoryCalls = p.factoryCalls + 1 ∧
    (WorkerPool.get p).1.workersPool = [] := by
  have hover : WorkerPool.capReached p.maxWorkers p.workersPool.length = true := by
    simp [WorkerPool.capReached, hcap]
  rw [WorkerPool.ret_over hover, WorkerPool.get_nil hidle]
  simp [WorkerPool.factory, hidle]

/-- Witness for C5's amended theorem at
`new WorkerPool(ctor, { maxWorkers: 0 })` and handle 5. -/
theorem claim5_zero_capacity_amended_witness :
    (WorkerPool.mkPool 0 (some 0)).maxWorkers = some 0 ∧
    (WorkerPool.mkPool 0 (some 0)).workersPool = [] ∧
    (WorkerPool.ret (WorkerPool.mkPool 0 (some 0)) 5).terminated
      = (WorkerPool.mkPool 0 (some 0)).terminated ++ [5] ∧
    (WorkerPool.ret (WorkerPool.mkPool 0 (some 0)) 5).workersPool = [] ∧
    (WorkerPool.get (WorkerPool.mkPool 0 (some 0))).2 = (WorkerPool.mkPool 0 (some 0)).nextId ∧
    (WorkerPool.get (WorkerPool.mkPool 0 (some 0))).1.factoryCalls
      = (WorkerPool.mkPool 0 (some 0)).factoryCalls + 1 ∧
    (WorkerPool.get (WorkerPool.mkPool 0 (some 0))).1.workersPool = [] := by
  refine ⟨by decide, by decide, ?_⟩
  have h := claim5_zero_capacity_amended (WorkerPool.mkPool 0 (some 0)) 5
    (by decide) (by decide)
  exact ⟨h.1, h.2.1, h.2.2.1, h.2.2.2.1, h.2.2.2.2⟩

/-- C6 (confirmed): on a pool holding fewer than `n` (pairwise distinct,
pool-produced) idle handles, `n` calls of `get()` return `n` pairwise
distinct handles and invoke the factory exactly `n - idle.size` times
(`= max(0, n - idle.size)` since `idle.size < n`). -/
theorem claim6_growth (p : WorkerPool) (n : Nat) (hnd : p.workersPool.Nodup)
    (hfresh : ∀ w ∈ p.workersPool, w < p.nextId)
    (hn : p.workersPool.length < n) :
    (WorkerPool.getN p n).2.Nodup ∧ (WorkerPool.getN p n).2.length = n ∧
    (WorkerPool.getN p n).1.factoryCalls
      = p.factoryCalls + (n - p.workersPool.length) := by
  obtain ⟨h1, h2, h3, h4⟩ := WorkerPool.getN_spec n p
  have htake : p.workersPool.take n = p.workersPool :=
    List.take_of_length_le (le_of_lt hn)
  refine ⟨?_, ?_, h2⟩
  · rw [h1, htake]
    refine List.Nodup.append hnd (List.nodup_range' _ _) ?_
    intro u hu hu'
    have h5 := hfresh u hu
    have h6 := (List.mem_range'_1).mp hu'
    omega
  · rw [h1, htake]
    simp
    omega

/-- Witness for C6 at a pool holding one idle handle and `n = 3`. -/
theorem claim6_growth_witness :
    (WorkerPool.mkPool 1 none).workersPool.Nodup ∧
    (∀ w ∈ (WorkerPool.mkPool 1 none).workersPool, w < (WorkerPool.mkPool 1 none).nextId) ∧
    (WorkerPool.mkPool 1 none).workersPool.length < 3 ∧
    (WorkerPool.getN (WorkerPool.mkPool 1 none) 3).2.Nodup ∧
    (WorkerPool.getN (WorkerPool.mkPool 1 none) 3).2.length = 3 ∧
    (WorkerPool.getN (WorkerPool.mkPool 1 none) 3).1.factoryCalls
      = (WorkerPool.mkPool 1 none).factoryCalls
        + (3 - (WorkerPool.mkPool 1 none).workersPool.length) := by
  refine ⟨by decide, by decide, by decide, ?_⟩
  exact claim6_growth (WorkerPool.mkPool 1 none) 3 (by decide) (by decide) (by decide)

/-- C7 (confirmed): `new WorkerPool(ctor, { initialWorkers: m })` invokes the
factory exactly `m` times, stores the `m` (distinct) results in the idle set,
and the next `m` calls of `get()` return `m` pairwise distinct handles with
zero factory invocations during those acquisitions. -/
theorem claim7_initial_population (m : Nat) (cap : Option Nat) :
    (WorkerPool.mkPool m cap).factoryCalls = m ∧
    (WorkerPool.mkPool m cap).workersPool.length = m ∧
    (WorkerPool.getN (WorkerPool.mkPool m cap) m).2.Nodup ∧
    (WorkerPool.getN (WorkerPool.mkPool m cap) m).2.length = m ∧
    (WorkerPool.getN (WorkerPool.mkPool m cap) m).1.factoryCalls
      = (WorkerPool.mkPool m cap).factoryCalls := by
  obtain ⟨h1, h2, h3, h4⟩ := WorkerPool.getN_spec m (WorkerPool.mkPool m cap)
  rw [WorkerPool.mkPool_spec] at h1 h2 ⊢
  simp only at h1 h2 ⊢
  have ht : (List.range m).take m = List.range m :=
    List.take_of_length_le (by simp)
  refine ⟨by trivial, by simp, ?_, ?_, ?_⟩
  · rw [h1, ht]
    simp [List.nodup_range]
  · rw [h1, ht]
    simp
  · rw [h2]
    simp

/-- C8 (confirmed): when the idle set is below capacity after a first
`return(w)`, a second `return(w)` with no intervening `get` is a no-op — the
`Set` already contains `w`, so `add` changes nothing, the handle is idle at
most once, and nothing is terminated. -/
theorem claim8_double_release (p : WorkerPool) (w : Nat)
    (hnd : p.workersPool.Nodup)
    (hunder : WorkerPool.capReached p.maxWorkers
      (WorkerPool.ret p w).workersPool.length = false) :
    WorkerPool.ret (WorkerPool.ret p w) w = WorkerPool.ret p w ∧
    (WorkerPool.ret p w).workersPool.count w ≤ 1 := by
  have hc1 : WorkerPool.capReached p.maxWorkers p.workersPool.length = false := by
    by_cases hc : WorkerPool.capReached p.maxWorkers p.workersPool.length
    · rw [WorkerPool.ret_over hc] at hunder
      simp only at hunder
      rw [hc] at hunder
      exact absurd hunder (by simp)
    · simpa using hc
  have hw : w ∈ setAdd p.workersPool w := WorkerPool.mem_setAdd_self _ _
  have hsecond : WorkerPool.capReached p.maxWorkers
      (setAdd p.workersPool w).length = false := by
    rw [WorkerPool.ret_under hc1] at hunder
    simpa using hunder
  constructor
  · rw [WorkerPool.ret_under hc1]
    rw [WorkerPool.ret_under (show WorkerPool.capReached
        ({ p with workersPool := setAdd p.workersPool w } : WorkerPool).maxWorkers
        ({ p with workersPool := setAdd p.workersPool w }
          : WorkerPool).workersPool.length = false by simpa using hsecond)]
    simp [WorkerPool.setAdd_of_mem hw]
  · rw [WorkerPool.ret_under hc1]
    simp only
    exact List.nodup_iff_count_le_one.mp (WorkerPool.setAdd_nodup hnd) w

/-- Witness for C8 at a pool with one idle handle (0), capacity 3, releasing
handle 7 twice. -/
theorem claim8_double_release_witness :
    (WorkerPool.mkPool 1 (some 3)).workersPool.Nodup ∧
    WorkerPool.capReached (WorkerPool.mkPool 1 (some 3)).maxWorkers
      (WorkerPool.ret (WorkerPool.mkPool 1 (some 3)) 7).workersPool.length = false ∧
    WorkerPool.ret (WorkerPool.ret (WorkerPool.mkPool 1 (some 3)) 7) 7
      = WorkerPool.ret (WorkerPool.mkPool 1 (some 3)) 7 ∧
    (WorkerPool.ret (WorkerPool.mkPool 1 (some 3)) 7).workersPool.count 7 ≤ 1 := by
  refine ⟨by decide, by decide, ?_⟩
  exact claim8_double_release (WorkerPool.mkPool 1 (some 3)) 7 (by decide) (by decide)

/-- If the fallible factory succeeds on every invocation before the `i`-th
and throws on the `i`-th, the constructor loop propagates that error. -/
theorem populateE_error : ∀ (n i0 : Nat) (s : List Nat)
    (f : Nat → Except String Nat) (i : Nat) (e : String),
    i0 ≤ i → i < i0 + n → f i = .error e →
    (∀ j, i0 ≤ j → j < i → ∃ w, f j = Except.ok w) →
    populateE f n i0 s = .error e := by
  intro n
  induction n with
  | zero =>
    intro i0 s f i e h1 h2 _ _
    omega
  | succ n ih =>
    intro i0 s f i e h1 h2 herr hok
    by_cases hi : i0 = i
    · subst hi
      simp [populateE, herr]
    · have hlt : i0 < i := lt_of_le_of_ne h1 hi
      obtain ⟨w, hw⟩ := hok i0 le_rfl hlt
      simp only [populateE, hw]
      exact ih (i0 + 1) _ f i e hlt (by omega) herr
        (fun j hj1 hj2 => hok j (by omega) hj2)

/-- C9 (confirmed): if the factory throws on its `i`-th invocation during
constructor-time population (after `i` successful ones), the constructor
propagates the error verbatim and yields no pool state at all; and a throw
during lazy creation in `get()` on an empty idle set is propagated verbatim
with the idle set untouched. -/
theorem claim9_factory_failure (f : Nat → Except String Nat) (n i : Nat)
    (e : String) (hin : i < n) (herr : f i = .error e)
    (hok : ∀ j, j < i → ∃ w, f j = Except.ok w) :
    populateE f n 0 [] = .error e ∧
    getE [] (Except.error e) = .error e :=
  ⟨populateE_error n 0 [] f i e (Nat.zero_le i) (by omega) herr
    (fun j _ hj => hok j hj), rfl⟩

/-- Witness for C9 with a factory that throws on its second invocation, in a
constructor asked for three initial workers. -/
theorem claim9_factory_failure_witness :
    populateE failF 3 0 [] = Except.error "factory failed" ∧
    getE [] (Except.error "factory failed") = Except.error "factory failed" :=
  claim9_factory_failure failF 3 1 "factory failed" (by decide) rfl
    (fun j hj => ⟨j, by
      have hj0 : j = 0 := by omega
      subst hj0
      rfl⟩)

/-- C10 (confirmed): on a non-empty idle set, `get()` removes and returns the
first inserted (least recently inserted) idle handle, and `return` under
capacity appends to the back of the insertion order — so handles released
earlier are handed out before handles released later. -/
theorem claim10_fifo (p : WorkerPool) (w c : Nat) (rest : List Nat)
    (h : p.workersPool = w :: rest)
    (hcap : WorkerPool.capReached p.maxWorkers p.workersPool.length = false)
    (hc : c ∉ p.workersPool) :
    (WorkerPool.get p).2 = w ∧ (WorkerPool.get p).1.workersPool = rest ∧
    (WorkerPool.ret p c).workersPool = p.workersPool ++ [c] := by
  refine ⟨?_, ?_, ?_⟩
  · rw [WorkerPool.get_cons h]
  · rw [WorkerPool.get_cons h]
  · rw [WorkerPool.ret_under hcap]
    simp only
    exact WorkerPool.setAdd_of_not_mem hc

/-- Witness for C10 at a pool with idle handles `[0, 1]`, capacity 5,
released handle 7. -/
theorem claim10_fifo_witness :
    (WorkerPool.mkPool 2 (some 5)).workersPool = 0 :: [1] ∧
    WorkerPool.capReached (WorkerPool.mkPool 2 (some 5)).maxWorkers
      (WorkerPool.mkPool 2 (some 5)).workersPool.length = false ∧
    (7 : Nat) ∉ (WorkerPool.mkPool 2 (some 5)).workersPool ∧
    (WorkerPool.get (WorkerPool.mkPool 2 (some 5))).2 = 0 ∧
    (WorkerPool.get (WorkerPool.mkPool 2 (some 5))).1.workersPool = [1] ∧
    (WorkerPool.ret (WorkerPool.mkPool 2 (some 5)) 7).workersPool
      = (WorkerPool.mkPool 2 (some 5)).workersPool ++ [7] := by
  refine ⟨by decide, by decide, by decide, ?_⟩
  exact claim10_fifo (WorkerPool.mkPool 2 (some 5)) 0 7 [1]
    (by decide) (by decide) (by decide)

